import Mathlib

/-!
Verification of the computational core of kubectl-view-allocations.

The repository source available is src/src/main.rs; the modules qty.rs and
tree.rs it declares are not in the source tree, so the Qty type and the
tree-prefix helper are modelled from the spec where needed (each such
definition carries a doc comment starting with "Modelled from the spec:").
Everything else is a shallow embedding of main.rs.
-/

/-- Modelled from the spec: qty.rs is absent from src.  Spec §3 requires an
exact magnitude (big-integer mantissa with a power-of-base exponent, "or an
equivalent fixed-point/rational representation", §9).  We use the sanctioned
rational representation: a single exact rational magnitude.  The scale family
kept for display is omitted: it plays no role in arithmetic or comparison
(spec §3: "family is irrelevant to correctness of arithmetic"). -/
structure Qty where
  value : ℚ
deriving DecidableEq, Repr

/-- Modelled from the spec: a freshly constructed (unparsed) zero value, the
additive identity (spec §3); Rust side is the derived Qty::default(). -/
def Qty.defaultQty : Qty := ⟨0⟩

/-- Modelled from the spec: exact addition (spec §4.1 add). -/
def Qty.add (a b : Qty) : Qty := ⟨a.value + b.value⟩

/-- Modelled from the spec: exact subtraction (spec §4.1 subtract). -/
def Qty.sub (a b : Qty) : Qty := ⟨a.value - b.value⟩

/-- Modelled from the spec: the exact total order (spec §4.1 compare); the
Rust side is Qty's PartialOrd used by calc_free's comparisons. -/
def Qty.lt (a b : Qty) : Prop := a.value < b.value

instance : LT Qty := ⟨Qty.lt⟩

instance (a b : Qty) : Decidable (a < b) :=
  inferInstanceAs (Decidable (a.value < b.value))

/-- Modelled from the spec: qty.rs is absent from src.  Spec §4.1
percentage_of: "returns 100 * numerator/denominator; defined as 0 when
denominator is the zero quantity (avoids division-by-zero failure)".
Called in main.rs as qtys.requested.calc_percentage(&qtys.allocatable). -/
def Qty.calc_percentage (n d : Qty) : ℚ :=
  if d.value = 0 then 0 else 100 * n.value / d.value

/-- struct Location, main.rs lines 16-22 (the namespace field is renamed
since namespace is a Lean keyword). -/
structure Location where
  node_name : Option String
  namespace_ : Option String
  pod_name : Option String
  container_name : Option String
deriving DecidableEq, Repr

def Location.defaultLoc : Location := ⟨none, none, none, none⟩

/-- enum ResourceUsage, main.rs lines 32-37. -/
inductive ResourceUsage where
  | Limit
  | Requested
  | Allocatable
deriving DecidableEq, Repr

/-- struct Resource, main.rs lines 24-30. -/
structure Resource where
  kind : String
  quantity : Qty
  location : Location
  usage : ResourceUsage
deriving DecidableEq, Repr

/-- struct QtyOfUsage, main.rs lines 39-44 (Default derive: all-zero). -/
structure QtyOfUsage where
  limit : Qty
  requested : Qty
  allocatable : Qty
deriving DecidableEq, Repr

def QtyOfUsage.defaultQOU : QtyOfUsage :=
  ⟨Qty.defaultQty, Qty.defaultQty, Qty.defaultQty⟩

/-- QtyOfUsage::calc_free, main.rs lines 47-54. -/
def QtyOfUsage.calc_free (q : QtyOfUsage) : Qty :=
  let total_used := if q.requested < q.limit then q.limit else q.requested
  if total_used < q.allocatable then q.allocatable.sub total_used
  else Qty.defaultQty

/-- sum_by_usage, main.rs lines 56-65: fold over the resources, routing each
quantity into the accumulator field selected by its usage kind. -/
def sum_by_usage (rsrcs : List Resource) : QtyOfUsage :=
  rsrcs.foldl
    (fun acc v =>
      match v.usage with
      | ResourceUsage.Limit => { acc with limit := acc.limit.add v.quantity }
      | ResourceUsage.Requested =>
          { acc with requested := acc.requested.add v.quantity }
      | ResourceUsage.Allocatable =>
          { acc with allocatable := acc.allocatable.add v.quantity })
    QtyOfUsage.defaultQOU

/-- extract_kind, main.rs lines 67-69. -/
def extract_kind (e : Resource) : String := e.kind

/-- extract_node_name, main.rs lines 71-73. -/
def extract_node_name (e : Resource) : String :=
  e.location.node_name.getD ""

/-- Folding Qty.add over a list, as repeated += does; used to state what the
accumulator fields amount to. -/
def qtySum (qs : List Qty) : Qty := qs.foldl Qty.add Qty.defaultQty

-- The aggregator -------------------------------------------------------------

/-- The distinct keys of a grouping, in first-occurrence order. -/
def dedupKeys : List String → List String
  | [] => []
  | k :: rest => k :: (dedupKeys rest).filter (fun x => ¬ x = k)

/-- itertools' into_group_map, as used at main.rs line 89: group a list by a
key function into a map from key to the members with that key, each group's
members in encounter order.  The iteration order over keys of the Rust
HashMap is arbitrary; we fix first-occurrence order, which is immaterial
downstream: the sums are order-independent and make_kind_x_usage sorts its
rows before returning them (main.rs line 78). -/
def into_group_map (f : Resource → String) (rs : List Resource) :
    List (String × List Resource) :=
  (dedupKeys (rs.map f)).map (fun k => (k, rs.filter (fun x => f x = k)))

/-- make_group_x_usage, main.rs lines 82-101, with the extractor list already
advanced to the current depth: the source looks up group_by_fct.get(depth)
and recurses at depth + 1, which is the same as peeling successive heads off
group_by_fct.drop(depth); structural recursion on that remainder.  For each
group at this depth the row (prefix ++ [key], sum_by_usage group) is emitted
followed by the rows of the group's own subdivision. -/
def make_group_x_usage_from (fcts : List (Resource → String)) (rsrcs : List Resource)
    (pfx : List String) : List (List String × QtyOfUsage) :=
  match fcts with
  | [] => []
  | f :: rest =>
      (into_group_map f rsrcs).flatMap fun kg =>
        (pfx ++ [kg.1], sum_by_usage kg.2) ::
          make_group_x_usage_from rest kg.2 (pfx ++ [kg.1])

/-- make_group_x_usage, main.rs lines 82-101: the source signature, taking the
full extractor list and a starting depth. -/
def make_group_x_usage (rsrcs : List Resource) (pfx : List String)
    (group_by_fct : List (Resource → String)) (group_by_depth : Nat) :
    List (List String × QtyOfUsage) :=
  make_group_x_usage_from (group_by_fct.drop group_by_depth) rsrcs pfx

/-- Strict lexicographic comparison of char lists: Rust's String Ord is
byte-wise lexicographic over UTF-8, which coincides with code-point
lexicographic order (UTF-8 is order-preserving). -/
def lexLtB : List Char → List Char → Bool
  | _, [] => false
  | [], _ :: _ => true
  | a :: as, b :: bs => if a < b then true else if b < a then false else lexLtB as bs

/-- Strict comparison of strings, Rust's String Ord. -/
def strLt (a b : String) : Bool := lexLtB a.data b.data

/-- Lexicographic order over a path's string components: the Ord of
Vec<String> used by out.sort_by_key at main.rs line 78. -/
def pathLe : List String → List String → Bool
  | [], _ => true
  | _ :: _, [] => false
  | a :: as, b :: bs => if strLt a b then true else if strLt b a then false else pathLe as bs

/-- Row comparison by key path, the sort key of main.rs line 78. -/
def rowLe (a b : List String × QtyOfUsage) : Prop := pathLe a.1 b.1 = true

instance : DecidableRel rowLe := fun a b =>
  inferInstanceAs (Decidable (pathLe a.1 b.1 = true))

/-- The sort of main.rs line 78 (out.sort_by_key(|i| i.0.clone())): a stable
sort of the rows by key path. -/
def sortRows (rows : List (List String × QtyOfUsage)) : List (List String × QtyOfUsage) :=
  rows.insertionSort rowLe

/-- make_kind_x_usage, main.rs lines 75-80: group by resource kind, then by
node name, and sort the rows by key path. -/
def make_kind_x_usage (rsrcs : List Resource) : List (List String × QtyOfUsage) :=
  sortRows (make_group_x_usage rsrcs [] [extract_kind, extract_node_name] 0)

/-- The worked observation set of spec §8: cpu on node n2, cpu on node n1,
mem on node n1 (requested 1, 2 and 1Gi = 2^30). -/
def demoResources : List Resource :=
  [⟨"cpu", ⟨1⟩, ⟨some "n2", none, none, none⟩, ResourceUsage.Requested⟩,
   ⟨"cpu", ⟨2⟩, ⟨some "n1", none, none, none⟩, ResourceUsage.Requested⟩,
   ⟨"mem", ⟨2 ^ 30⟩, ⟨some "n1", none, none, none⟩, ResourceUsage.Requested⟩]

-- Helper lemmas about sum_by_usage ------------------------------------------

/-- The is_parent_of closure passed to tree::provide_prefix at main.rs lines
194-196: it compares path lengths only. -/
def default_is_parent_of (parent item : List String × QtyOfUsage) : Bool :=
  parent.1.length + 1 == item.1.length

/-- The predicate the spec says the default caller supplies (spec §4.3): path
length one less AND the candidate path a component-wise first part of the
row's path. -/
def spec_is_parent_of (parent item : List String × QtyOfUsage) : Bool :=
  (parent.1.length + 1 == item.1.length) && parent.1.isPrefixOf item.1

-- Quantity parsing and the observation collectors ----------------------------

/-- Modelled from the spec: the quantity-grammar parse failure of §7 (the
source's failure::Error carries no structure the core depends on). -/
inductive ParseError where
  | invalidQuantity
deriving DecidableEq, Repr

/-- Numeric value of a non-empty digit run. -/
def digitsToNat (ds : List Char) : Nat :=
  ds.foldl (fun a c => 10 * a + (c.toNat - Char.toNat '0')) 0

/-- Consume the optional [+-] sign; return whether it was a minus, and the
rest. -/
def parseSign : List Char → (Bool × List Char)
  | '+' :: t => (false, t)
  | '-' :: t => (true, t)
  | t => (false, t)

/-- Consume one-or-more digits [0-9]+; value, digit count and rest. -/
def parseDigits1 (cs : List Char) : Option (Nat × Nat × List Char) :=
  if (cs.span Char.isDigit).1.isEmpty then none
  else some (digitsToNat (cs.span Char.isDigit).1,
    (cs.span Char.isDigit).1.length, (cs.span Char.isDigit).2)

/-- Consume the optional fractional part (\.[0-9]+)?; its value and rest. -/
def parseFracPart : List Char → Option (ℚ × List Char)
  | [] => some (0, [])
  | c :: t =>
      if c = '.' then
        match parseDigits1 t with
        | none => none
        | some (v, len, r) => some ((v : ℚ) / (10 : ℚ) ^ len, r)
      else some (0, c :: t)

/-- Consume [+-]?[0-9]+ after an exponent marker; signed value and rest. -/
def parseSignedDigits : List Char → Option (Int × List Char)
  | [] => none
  | d :: u =>
      if d = '+' then (parseDigits1 u).map (fun x => ((x.1 : Int), x.2.2))
      else if d = '-' then (parseDigits1 u).map (fun x => (-(x.1 : Int), x.2.2))
      else (parseDigits1 (d :: u)).map (fun x => ((x.1 : Int), x.2.2))

/-- Consume an exponent ([eE][+-]?[0-9]+); fails when the marker is present
but not followed by sign/digits (the caller then backtracks, since E may
instead start the exa/exbi suffix). -/
def parseExpPart : List Char → Option (Int × List Char)
  | [] => some (0, [])
  | c :: t =>
      if c = 'e' ∨ c = 'E' then parseSignedDigits t
      else some (0, c :: t)

/-- Consume the optional scale suffix; scale factor and rest.  Decimal
suffixes are powers of 1000 starting at 10^-3 for m; binary suffixes are
powers of 1024 starting at 2^10 for Ki (spec §6). -/
def parseSuffixPart : List Char → (ℚ × List Char)
  | 'K' :: 'i' :: r => ((1024 : ℚ), r)
  | 'M' :: 'i' :: r => ((1024 : ℚ) ^ 2, r)
  | 'G' :: 'i' :: r => ((1024 : ℚ) ^ 3, r)
  | 'T' :: 'i' :: r => ((1024 : ℚ) ^ 4, r)
  | 'P' :: 'i' :: r => ((1024 : ℚ) ^ 5, r)
  | 'E' :: 'i' :: r => ((1024 : ℚ) ^ 6, r)
  | 'm' :: r => (1 / 1000, r)
  | 'k' :: r => ((1000 : ℚ), r)
  | 'M' :: r => ((1000 : ℚ) ^ 2, r)
  | 'G' :: r => ((1000 : ℚ) ^ 3, r)
  | 'T' :: r => ((1000 : ℚ) ^ 4, r)
  | 'P' :: r => ((1000 : ℚ) ^ 5, r)
  | 'E' :: r => ((1000 : ℚ) ^ 6, r)
  | r => (1, r)

/-- Modelled from the spec: Qty::from_str (qty.rs is absent from src).  Parses
Kubernetes quantity notation per the grammar of spec §6 and fails with
ParseError on any other input; the value is the exact rational
sign * (digits.frac) * 10^exponent * suffix-factor. -/
def Qty.from_str (s : String) : Except ParseError Qty :=
  match parseDigits1 (parseSign s.data).2 with
  | none => Except.error ParseError.invalidQuantity
  | some (ip, _, r1) =>
    match parseFracPart r1 with
    | none => Except.error ParseError.invalidQuantity
    | some (fr, r2) =>
      let er : Int × List Char := match parseExpPart r2 with
        | some er => er
        | none => ((0 : Int), r2)
      let sr := parseSuffixPart er.2
      if sr.2.isEmpty then
        Except.ok ⟨(if (parseSign s.data).1 then (-1 : ℚ) else 1) *
          ((ip : ℚ) + fr) * ((10 : ℚ) ^ (er.1 : ℤ)) * sr.1⟩
      else Except.error ParseError.invalidQuantity

/-- Recognize [0-9]+ and return the rest. -/
def chompDigits1 (cs : List Char) : Option (List Char) :=
  if (cs.span Char.isDigit).1.isEmpty then none else some (cs.span Char.isDigit).2

/-- Recognize the optional (\.[0-9]+)? and return the rest. -/
def chompFrac : List Char → Option (List Char)
  | [] => some []
  | c :: t => if c = '.' then chompDigits1 t else some (c :: t)

/-- Recognize [+-]?[0-9]+ after an exponent marker; return the rest. -/
def chompSignedDigits : List Char → Option (List Char)
  | [] => none
  | d :: u =>
      if d = '+' then chompDigits1 u
      else if d = '-' then chompDigits1 u
      else chompDigits1 (d :: u)

/-- Recognize ([eE][+-]?[0-9]+) and return the rest; fails when the marker is
present without digits. -/
def chompExp : List Char → Option (List Char)
  | [] => some []
  | c :: t =>
      if c = 'e' ∨ c = 'E' then chompSignedDigits t
      else some (c :: t)

/-- Recognizer for the quantity grammar of spec §6, written directly after
the regex, stage by stage; the exponent stage backtracks exactly as a regex
engine would when [eE] is not followed by an exponent (so that 1Ei parses as
1 exbi). -/
def matchesQuantity (s : String) : Bool :=
  match chompDigits1 (parseSign s.data).2 with
  | none => false
  | some r1 =>
    match chompFrac r1 with
    | none => false
    | some r2 =>
      let r3 := match chompExp r2 with
        | some r => r
        | none => r2
      ((parseSuffixPart r3).2).isEmpty

/-- Whether an Except is a success. -/
def exceptOk {α : Type} (e : Except ParseError α) : Bool :=
  match e with
  | Except.ok _ => true
  | Except.error _ => false

/-- Rust's ? operator on Result: propagate the error, or continue with the
value. -/
def exceptSeq {α β : Type} (x : Except ParseError α)
    (k : α → Except ParseError β) : Except ParseError β :=
  match x with
  | Except.error e => Except.error e
  | Except.ok a => k a

/-- The node status shape used at main.rs line 111: an optional allocatable
map, modelled as (resource kind, quantity text) pairs. -/
structure NodeStatus where
  allocatable : Option (List (String × String))
deriving DecidableEq, Repr

/-- The node shape used at main.rs lines 106-111: a name and an optional
status. -/
structure NodeInfo where
  name : String
  status : Option NodeStatus
deriving DecidableEq, Repr

/-- The resource-requirements shape used at main.rs lines 137-157: optional
requests and limits maps. -/
structure ContainerResources where
  requests : Option (List (String × String))
  limits : Option (List (String × String))
deriving DecidableEq, Repr

/-- The container shape used at main.rs lines 130-137; resources is optional
and the source's for-loop iterates it zero or one times. -/
structure ContainerInfo where
  name : String
  resources : Option ContainerResources
deriving DecidableEq, Repr

/-- The pod spec shape used at main.rs lines 129-130. -/
structure PodSpecInfo where
  node_name : Option String
  containers : List ContainerInfo
deriving DecidableEq, Repr

/-- The pod status shape used at main.rs line 129. -/
structure PodStatusInfo where
  nominated_node_name : Option String
deriving DecidableEq, Repr

/-- The pod shape used at main.rs lines 128-136. -/
structure PodInfo where
  name : String
  namespace_ : Option String
  spec : PodSpecInfo
  status : Option PodStatusInfo
deriving DecidableEq, Repr

/-- The inner push loops of main.rs lines 112-119, 139-147 and 149-157: parse
each quantity text and push a Resource of the given usage kind; the source's
? operator is the early error return. -/
def push_resources (usage : ResourceUsage) (loc : Location)
    (items : List (String × String)) (resources : List Resource) :
    Except ParseError (List Resource) :=
  match items with
  | [] => Except.ok resources
  | a :: rest =>
    match Qty.from_str a.2 with
    | Except.error e => Except.error e
    | Except.ok q =>
        push_resources usage loc rest (resources ++ [⟨a.1, q, loc, usage⟩])

/-- collect_from_nodes, main.rs lines 103-123: for each node, push one
Allocatable resource per allocatable entry; a parse failure aborts the whole
collection. -/
def collect_from_nodes (nodes : List NodeInfo) (resources : List Resource) :
    Except ParseError (List Resource) :=
  match nodes with
  | [] => Except.ok resources
  | node :: rest =>
    let location : Location := ⟨some node.name, none, none, none⟩
    match node.status.bind (fun v => v.allocatable) with
    | some als =>
        exceptSeq (push_resources ResourceUsage.Allocatable location als resources)
          (fun rs => collect_from_nodes rest rs)
    | none => collect_from_nodes rest resources

/-- The requirements loop of main.rs lines 137-158: requests then limits. -/
def collect_requirements (loc : Location) (reqs : List ContainerResources)
    (resources : List Resource) : Except ParseError (List Resource) :=
  match reqs with
  | [] => Except.ok resources
  | requirements :: rest =>
    exceptSeq
      (match requirements.requests with
        | some r => push_resources ResourceUsage.Requested loc r resources
        | none => Except.ok resources)
      (fun rs1 =>
        exceptSeq
          (match requirements.limits with
            | some l => push_resources ResourceUsage.Limit loc l rs1
            | none => Except.ok rs1)
          (fun rs2 => collect_requirements loc rest rs2))

/-- The container loop of main.rs lines 130-158. -/
def collect_containers (node_name ns : Option String) (pod_name : String) :
    List ContainerInfo → List Resource → Except ParseError (List Resource)
  | [], resources => Except.ok resources
  | container :: rest, resources =>
      let location : Location := ⟨node_name, ns, some pod_name, some container.name⟩
      exceptSeq (collect_requirements location container.resources.toList resources)
        (fun rs => collect_containers node_name ns pod_name rest rs)

/-- collect_from_pods, main.rs lines 125-162: for each pod and container,
push Requested and Limit resources; a parse failure aborts the whole
collection. -/
def collect_from_pods (pods : List PodInfo) (resources : List Resource) :
    Except ParseError (List Resource) :=
  match pods with
  | [] => Except.ok resources
  | pod :: rest =>
    let node_name := (pod.status.bind (fun v => v.nominated_node_name)).or pod.spec.node_name
    exceptSeq
      (collect_containers node_name pod.namespace_ pod.name pod.spec.containers resources)
      (fun rs => collect_from_pods rest rs)

/-- All quantity texts a node list carries. -/
def nodeQtyStrings (nodes : List NodeInfo) : List String :=
  nodes.flatMap (fun n => ((n.status.bind (fun v => v.allocatable)).getD []).map Prod.snd)

/-- All quantity texts one requirements record carries. -/
def crQtyStrings (cr : ContainerResources) : List String :=
  (cr.requests.getD []).map Prod.snd ++ (cr.limits.getD []).map Prod.snd

/-- All quantity texts a pod list carries. -/
def podQtyStrings (pods : List PodInfo) : List String :=
  pods.flatMap (fun p => p.spec.containers.flatMap (fun c =>
    c.resources.toList.flatMap crQtyStrings))

/-- The requested-field contribution of one observation, in value form. -/
def reqContrib (r : Resource) : ℚ :=
  if r.usage = ResourceUsage.Requested then r.quantity.value else 0

/-- Total requested value carried by an observation collection. -/
def reqSum (rs : List Resource) : ℚ := (rs.map reqContrib).sum

/-- Sum, via Qty.add, of the .requested fields of the rows whose key path has
a given length, i.e. of the rows at a given tree level. -/
def rowsRequestedAtLevel (rows : List (List String × QtyOfUsage)) (n : Nat) : Qty :=
  qtySum ((rows.filter (fun r => r.1.length = n)).map (fun r => r.2.requested))

/-- Value form of rowsRequestedAtLevel. -/
def levelReqSum (rows : List (List String × QtyOfUsage)) (n : Nat) : ℚ :=
  ((rows.filter (fun r => r.1.length = n)).map (fun r => r.2.requested.value)).sum

theorem Qty.val_inj {a b : Qty} : a = b ↔ a.value = b.value := by
  cases a; cases b; simp

theorem QtyOfUsage.eq_iff {a b : QtyOfUsage} :
    a = b ↔ a.limit.value = b.limit.value ∧ a.requested.value = b.requested.value ∧
      a.allocatable.value = b.allocatable.value := by
  cases a; cases b
  simp [Qty.val_inj]

theorem qtySum_value (qs : List Qty) :
    (qtySum qs).value = (qs.map Qty.value).sum := by
  have h : ∀ (a : Qty), (qs.foldl Qty.add a).value = a.value + (qs.map Qty.value).sum := by
    induction qs with
    | nil => intro a; simp
    | cons q rest ih =>
        intro a
        simp only [List.foldl_cons, List.map_cons, List.sum_cons, ih, Qty.add]
        ring
  simpa [qtySum, Qty.defaultQty] using h Qty.defaultQty

theorem sum_by_usage_foldl (rsrcs : List Resource) (acc : QtyOfUsage) :
    (rsrcs.foldl
      (fun acc v =>
        match v.usage with
        | ResourceUsage.Limit => { acc with limit := acc.limit.add v.quantity }
        | ResourceUsage.Requested =>
            { acc with requested := acc.requested.add v.quantity }
        | ResourceUsage.Allocatable =>
            { acc with allocatable := acc.allocatable.add v.quantity })
      acc) =
    ⟨qtySum (acc.limit ::
        (rsrcs.filter (fun r => r.usage = ResourceUsage.Limit)).map Resource.quantity),
     qtySum (acc.requested ::
        (rsrcs.filter (fun r => r.usage = ResourceUsage.Requested)).map Resource.quantity),
     qtySum (acc.allocatable ::
        (rsrcs.filter (fun r => r.usage = ResourceUsage.Allocatable)).map Resource.quantity)⟩ := by
  induction rsrcs generalizing acc with
  | nil =>
      simp [QtyOfUsage.eq_iff, qtySum_value, Qty.defaultQty, Qty.add]
  | cons r rest ih =>
      cases hu : r.usage <;>
        simp only [List.foldl_cons, hu, ih, List.filter_cons] <;>
        simp [hu, QtyOfUsage.eq_iff, qtySum_value, Qty.add] <;>
        ring_nf

theorem sum_by_usage_eq (rsrcs : List Resource) :
    sum_by_usage rsrcs =
    ⟨qtySum ((rsrcs.filter (fun r => r.usage = ResourceUsage.Limit)).map Resource.quantity),
     qtySum ((rsrcs.filter (fun r => r.usage = ResourceUsage.Requested)).map Resource.quantity),
     qtySum ((rsrcs.filter (fun r => r.usage = ResourceUsage.Allocatable)).map Resource.quantity)⟩ := by
  rw [sum_by_usage, sum_by_usage_foldl]
  simp [QtyOfUsage.eq_iff, qtySum_value, QtyOfUsage.defaultQOU, Qty.defaultQty]

/-- The recursion of main.rs lines 88-97 in its source shape: the depth-d
extractor is looked up with get?, and the recursive call uses depth + 1. -/
theorem make_group_x_usage_eq (rsrcs : List Resource) (pfx : List String)
    (group_by_fct : List (Resource → String)) (group_by_depth : Nat) :
    make_group_x_usage rsrcs pfx group_by_fct group_by_depth =
      match group_by_fct[group_by_depth]? with
      | none => []
      | some f =>
          (into_group_map f rsrcs).flatMap fun kg =>
            (pfx ++ [kg.1], sum_by_usage kg.2) ::
              make_group_x_usage kg.2 (pfx ++ [kg.1]) group_by_fct (group_by_depth + 1) := by
  cases h : group_by_fct[group_by_depth]? with
  | none =>
      have hlen : group_by_fct.length ≤ group_by_depth := by
        simpa using List.getElem?_eq_none_iff.mp h
      unfold make_group_x_usage
      rw [List.drop_eq_nil_of_le hlen]
      rfl
  | some f =>
      have hlt : group_by_depth < group_by_fct.length :=
        (List.getElem?_eq_some_iff.mp h).1
      have hdrop : group_by_fct.drop group_by_depth =
          f :: group_by_fct.drop (group_by_depth + 1) := by
        rw [List.drop_eq_getElem_cons hlt, (List.getElem?_eq_some_iff.mp h).2]
      unfold make_group_x_usage
      rw [hdrop]
      rfl

theorem Qty.lt_iff {a b : Qty} : a < b ↔ a.value < b.value := Iff.rfl

/-- C2: calc_free returns allocatable minus max(limit, requested) when
allocatable is strictly greater than that maximum, and the zero quantity
otherwise; in particular the result is exactly zero, never negative, when
max(limit, requested) is at least allocatable. -/
theorem C2_calc_free_spec (q : QtyOfUsage) :
    (max q.limit.value q.requested.value < q.allocatable.value →
      q.calc_free = Qty.sub q.allocatable ⟨max q.limit.value q.requested.value⟩) ∧
    (q.allocatable.value ≤ max q.limit.value q.requested.value →
      q.calc_free = Qty.defaultQty) := by
  have hcf : q.calc_free =
      if (if q.requested < q.limit then q.limit else q.requested) < q.allocatable
      then q.allocatable.sub (if q.requested < q.limit then q.limit else q.requested)
      else Qty.defaultQty := rfl
  by_cases hlr : q.requested < q.limit
  · have hm : max q.limit.value q.requested.value = q.limit.value :=
      max_eq_left (le_of_lt (Qty.lt_iff.mp hlr))
    rw [hcf]
    simp only [if_pos hlr]
    constructor
    · intro h
      rw [if_pos (Qty.lt_iff.mpr (hm ▸ h))]
      simp [Qty.sub, Qty.val_inj, hm]
    · intro h
      rw [if_neg]
      intro hc
      exact absurd (Qty.lt_iff.mp hc) (not_lt.mpr (hm ▸ h))
  · have hle : q.limit.value ≤ q.requested.value := not_lt.mp (fun hc => hlr (Qty.lt_iff.mpr hc))
    have hm : max q.limit.value q.requested.value = q.requested.value := max_eq_right hle
    rw [hcf]
    simp only [if_neg hlr]
    constructor
    · intro h
      rw [if_pos (Qty.lt_iff.mpr (hm ▸ h))]
      simp [Qty.sub, Qty.val_inj, hm]
    · intro h
      rw [if_neg]
      intro hc
      exact absurd (Qty.lt_iff.mp hc) (not_lt.mpr (hm ▸ h))

/-- Witness for C2 at two concrete accumulators, one per branch. -/
theorem C2_calc_free_spec_witness :
    QtyOfUsage.calc_free ⟨⟨3⟩, ⟨2⟩, ⟨10⟩⟩ =
      Qty.sub ⟨10⟩ ⟨max (3 : ℚ) 2⟩ ∧
    QtyOfUsage.calc_free ⟨⟨5⟩, ⟨2⟩, ⟨4⟩⟩ = Qty.defaultQty :=
  ⟨(C2_calc_free_spec ⟨⟨3⟩, ⟨2⟩, ⟨10⟩⟩).1 (by decide),
   (C2_calc_free_spec ⟨⟨5⟩, ⟨2⟩, ⟨4⟩⟩).2 (by decide)⟩

/-- C5: each observation routed to a group is added, via Qty.add, to exactly
the accumulator field selected by its usage kind (limit, requested or
allocatable), and a field with zero matching observations equals the
freshly constructed zero quantity. -/
theorem C5_sum_by_usage_routing (rs : List Resource) :
    (sum_by_usage rs).limit =
      qtySum ((rs.filter (fun r => r.usage = ResourceUsage.Limit)).map Resource.quantity) ∧
    (sum_by_usage rs).requested =
      qtySum ((rs.filter (fun r => r.usage = ResourceUsage.Requested)).map Resource.quantity) ∧
    (sum_by_usage rs).allocatable =
      qtySum ((rs.filter (fun r => r.usage = ResourceUsage.Allocatable)).map Resource.quantity) ∧
    (rs.filter (fun r => r.usage = ResourceUsage.Limit) = [] →
      (sum_by_usage rs).limit = Qty.defaultQty) ∧
    (rs.filter (fun r => r.usage = ResourceUsage.Requested) = [] →
      (sum_by_usage rs).requested = Qty.defaultQty) ∧
    (rs.filter (fun r => r.usage = ResourceUsage.Allocatable) = [] →
      (sum_by_usage rs).allocatable = Qty.defaultQty) := by
  rw [sum_by_usage_eq]
  refine ⟨rfl, rfl, rfl, ?_, ?_, ?_⟩ <;>
    · intro h
      rw [h]
      rfl

/-- Witness for C5: a single Limit observation leaves requested at zero. -/
theorem C5_sum_by_usage_routing_witness :
    (sum_by_usage [⟨"cpu", ⟨1⟩, Location.defaultLoc, ResourceUsage.Limit⟩]).requested =
      Qty.defaultQty :=
  (C5_sum_by_usage_routing
    [⟨"cpu", ⟨1⟩, Location.defaultLoc, ResourceUsage.Limit⟩]).2.2.2.2.1 rfl

/-- C7: calc_percentage returns 100 * numerator / denominator when the
denominator is nonzero, and 0 when the denominator is the zero quantity,
including when the numerator is itself zero. -/
theorem C7_calc_percentage_spec (x d : Qty) :
    (d.value ≠ 0 → Qty.calc_percentage x d = 100 * x.value / d.value) ∧
    (d = Qty.defaultQty → Qty.calc_percentage x d = 0) := by
  constructor
  · intro h
    rw [Qty.calc_percentage, if_neg h]
  · intro h
    subst h
    rfl

/-- Witness for C7: a nonzero denominator and the zero/zero case. -/
theorem C7_calc_percentage_spec_witness :
    Qty.calc_percentage ⟨1⟩ ⟨2⟩ = 100 * (1 : ℚ) / 2 ∧
    Qty.calc_percentage Qty.defaultQty Qty.defaultQty = 0 :=
  ⟨(C7_calc_percentage_spec ⟨1⟩ ⟨2⟩).1 (by decide),
   (C7_calc_percentage_spec Qty.defaultQty Qty.defaultQty).2 rfl⟩

-- Order facts about lexLtB, strLt and pathLe ---------------------------------

theorem lexLtB_cons_iff {a b : Char} {as bs : List Char} :
    lexLtB (a :: as) (b :: bs) = true ↔ a < b ∨ (a = b ∧ lexLtB as bs = true) := by
  simp only [lexLtB]
  split_ifs with h1 h2
  · simp [h1]
  · constructor
    · intro hc
      exact absurd hc (by simp)
    · rintro (hc | ⟨rfl, _⟩)
      · exact absurd hc h1
      · exact absurd h2 (lt_irrefl a)
  · have hab : a = b := le_antisymm (not_lt.mp h2) (not_lt.mp h1)
    simp [hab]

theorem lexLtB_irrefl : ∀ x : List Char, lexLtB x x = false
  | [] => rfl
  | a :: as => by
      simp only [lexLtB, lt_irrefl a, if_false, lexLtB_irrefl as]

theorem lexLtB_trans :
    ∀ x y z : List Char, lexLtB x y = true → lexLtB y z = true → lexLtB x z = true
  | [], _ :: _, _ :: _, _, _ => rfl
  | _, [], _, h, _ => by simp [lexLtB] at h
  | _, _ :: _, [], _, h => by simp [lexLtB] at h
  | a :: as, b :: bs, c :: cs, h1, h2 => by
      rcases lexLtB_cons_iff.mp h1 with hab | ⟨hab, hres1⟩ <;>
        rcases lexLtB_cons_iff.mp h2 with hbc | ⟨hbc, hres2⟩
      · exact lexLtB_cons_iff.mpr (Or.inl (lt_trans hab hbc))
      · exact lexLtB_cons_iff.mpr (Or.inl (hbc ▸ hab))
      · exact lexLtB_cons_iff.mpr (Or.inl (hab ▸ hbc))
      · exact lexLtB_cons_iff.mpr (Or.inr ⟨hab.trans hbc, lexLtB_trans as bs cs hres1 hres2⟩)

theorem lexLtB_trichotomy :
    ∀ x y : List Char, lexLtB x y = true ∨ x = y ∨ lexLtB y x = true
  | [], [] => Or.inr (Or.inl rfl)
  | [], _ :: _ => Or.inl rfl
  | _ :: _, [] => Or.inr (Or.inr rfl)
  | a :: as, b :: bs => by
      rcases lt_trichotomy a b with h | h | h
      · exact Or.inl (lexLtB_cons_iff.mpr (Or.inl h))
      · rcases lexLtB_trichotomy as bs with ih | ih | ih
        · exact Or.inl (lexLtB_cons_iff.mpr (Or.inr ⟨h, ih⟩))
        · exact Or.inr (Or.inl (by rw [h, ih]))
        · exact Or.inr (Or.inr (lexLtB_cons_iff.mpr (Or.inr ⟨h.symm, ih⟩)))
      · exact Or.inr (Or.inr (lexLtB_cons_iff.mpr (Or.inl h)))

theorem strLt_irrefl (a : String) : strLt a a = false := lexLtB_irrefl a.data

theorem strLt_trans {a b c : String} (h1 : strLt a b = true) (h2 : strLt b c = true) :
    strLt a c = true := lexLtB_trans a.data b.data c.data h1 h2

theorem strLt_trichotomy (a b : String) :
    strLt a b = true ∨ a = b ∨ strLt b a = true := by
  rcases lexLtB_trichotomy a.data b.data with h | h | h
  · exact Or.inl h
  · refine Or.inr (Or.inl ?_)
    cases a; cases b
    exact congrArg String.mk (by simpa using h)
  · exact Or.inr (Or.inr h)

theorem pathLe_cons_iff {a b : String} {as bs : List String} :
    pathLe (a :: as) (b :: bs) = true ↔
      strLt a b = true ∨ (a = b ∧ pathLe as bs = true) := by
  simp only [pathLe]
  split_ifs with h1 h2
  · simp [h1]
  · constructor
    · intro hc
      exact absurd hc (by simp)
    · rintro (hc | ⟨rfl, _⟩)
      · simp [hc] at h1
      · simp [strLt_irrefl a] at h2
  · have hab : a = b := by
      rcases strLt_trichotomy a b with h | h | h
      · exact absurd h (by simp [h1])
      · exact h
      · exact absurd h (by simp [h2])
    simp [hab, strLt_irrefl]

theorem pathLe_total : ∀ x y : List String, pathLe x y = true ∨ pathLe y x = true
  | [], _ => Or.inl rfl
  | _ :: _, [] => Or.inr rfl
  | a :: as, b :: bs => by
      rcases strLt_trichotomy a b with h | h | h
      · exact Or.inl (pathLe_cons_iff.mpr (Or.inl h))
      · rcases pathLe_total as bs with ih | ih
        · exact Or.inl (pathLe_cons_iff.mpr (Or.inr ⟨h, ih⟩))
        · exact Or.inr (pathLe_cons_iff.mpr (Or.inr ⟨h.symm, ih⟩))
      · exact Or.inr (pathLe_cons_iff.mpr (Or.inl h))

theorem pathLe_trans :
    ∀ x y z : List String, pathLe x y = true → pathLe y z = true → pathLe x z = true
  | [], _, _, _, _ => rfl
  | _ :: _, [], _, h, _ => by simp [pathLe] at h
  | _ :: _, _ :: _, [], _, h => by simp [pathLe] at h
  | a :: as, b :: bs, c :: cs, h1, h2 => by
      rcases pathLe_cons_iff.mp h1 with hab | ⟨hab, hres1⟩ <;>
        rcases pathLe_cons_iff.mp h2 with hbc | ⟨hbc, hres2⟩
      · exact pathLe_cons_iff.mpr (Or.inl (strLt_trans hab hbc))
      · exact pathLe_cons_iff.mpr (Or.inl (hbc ▸ hab))
      · exact pathLe_cons_iff.mpr (Or.inl (hab ▸ hbc))
      · exact pathLe_cons_iff.mpr (Or.inr ⟨hab.trans hbc, pathLe_trans as bs cs hres1 hres2⟩)

/-- C8: the aggregator has no error outcome: the node-name extractor is total
(it yields "" when the node name is missing, and the stored name otherwise),
and make_kind_x_usage returns a plain row list for every input — in the
source its type carries no error case at all. -/
theorem C8_aggregator_never_fails :
    (∀ r : Resource, r.location.node_name = none → extract_node_name r = "") ∧
    (∀ r : Resource, extract_node_name r = r.location.node_name.getD "") ∧
    (∀ rsrcs : List Resource, ∃ out, make_kind_x_usage rsrcs = out) :=
  ⟨fun r h => by simp [extract_node_name, h], fun _ => rfl, fun _ => ⟨_, rfl⟩⟩

/-- Witness for C8 at a resource with no node name. -/
theorem C8_aggregator_never_fails_witness :
    extract_node_name ⟨"cpu", ⟨1⟩, Location.defaultLoc, ResourceUsage.Requested⟩ = "" :=
  C8_aggregator_never_fails.1 _ rfl

-- Shape and uniqueness of emitted key paths ----------------------------------

theorem dedupKeys_nodup : ∀ l : List String, (dedupKeys l).Nodup
  | [] => List.nodup_nil
  | k :: rest => by
      rw [dedupKeys]
      refine List.Nodup.cons ?_ (List.Nodup.filter _ (dedupKeys_nodup rest))
      intro hmem
      rcases List.mem_filter.mp hmem with ⟨_, hk⟩
      simp at hk

theorem mem_dedupKeys {x : String} : ∀ {l : List String}, x ∈ dedupKeys l ↔ x ∈ l
  | [] => Iff.rfl
  | k :: rest => by
      rw [dedupKeys]
      by_cases hx : x = k
      · subst hx
        simp
      · simp only [List.mem_cons, List.mem_filter, mem_dedupKeys (l := rest)]
        simp [hx]

/-- Every path emitted below a given key-path p extends p by at least one and
at most (number of remaining extractors) components. -/
theorem mgxu_from_shape :
    ∀ (fcts : List (Resource → String)) (rsrcs : List Resource) (pfx : List String)
      (p : List String), p ∈ (make_group_x_usage_from fcts rsrcs pfx).map Prod.fst →
      ∃ t : List String, p = pfx ++ t ∧ t ≠ [] ∧ t.length ≤ fcts.length := by
  intro fcts
  induction fcts with
  | nil =>
      intro rsrcs pfx p hp
      simp [make_group_x_usage_from] at hp
  | cons f rest ih =>
      intro rsrcs pfx p hp
      rcases List.mem_map.mp hp with ⟨row, hrow, hfst⟩
      rcases List.mem_flatMap.mp hrow with ⟨kg, _, hrowin⟩
      rcases List.mem_cons.mp hrowin with hhead | hrec
      · refine ⟨[kg.1], ?_, by simp, by simp⟩
        rw [← hfst, hhead]
      · have hmem : row.1 ∈ (make_group_x_usage_from rest kg.2 (pfx ++ [kg.1])).map Prod.fst :=
          List.mem_map_of_mem Prod.fst hrec
        rcases ih kg.2 (pfx ++ [kg.1]) row.1 hmem with ⟨t, ht, _, hlen⟩
        refine ⟨kg.1 :: t, ?_, by simp, ?_⟩
        · rw [← hfst, ht, List.append_assoc]
          rfl
        · simpa using Nat.succ_le_succ hlen

/-- A path emitted from the block of key k starts with pfx ++ k. -/
theorem mgxu_block_shape {rest : List (Resource → String)}
    {rs2 : List Resource} {pfx : List String} {k : String} {p : List String}
    (hp : p ∈ (pfx ++ [k]) ::
        (make_group_x_usage_from rest rs2 (pfx ++ [k])).map Prod.fst) :
    ∃ t : List String, p = pfx ++ k :: t := by
  rcases List.mem_cons.mp hp with hhead | hrec
  · exact ⟨[], by rw [hhead]⟩
  · rcases mgxu_from_shape rest rs2 (pfx ++ [k]) p hrec with ⟨t, ht, _, _⟩
    refine ⟨t, ?_⟩
    rw [ht, List.append_assoc]
    rfl

theorem mgxu_from_nodup :
    ∀ (fcts : List (Resource → String)) (rsrcs : List Resource) (pfx : List String),
      ((make_group_x_usage_from fcts rsrcs pfx).map Prod.fst).Nodup := by
  intro fcts
  induction fcts with
  | nil =>
      intro rsrcs pfx
      simp [make_group_x_usage_from]
  | cons f rest ih =>
      intro rsrcs pfx
      have hrows : (make_group_x_usage_from (f :: rest) rsrcs pfx).map Prod.fst =
          (dedupKeys (rsrcs.map f)).flatMap (fun k =>
            (pfx ++ [k]) ::
              (make_group_x_usage_from rest (rsrcs.filter (fun x => f x = k))
                (pfx ++ [k])).map Prod.fst) := by
        rw [make_group_x_usage_from, into_group_map, List.flatMap_map, List.map_flatMap]
        rfl
      rw [hrows]
      refine List.nodup_flatMap.mpr ⟨?_, ?_⟩
      · intro k _
        refine List.Nodup.cons ?_ (ih _ _)
        intro hmem
        rcases mgxu_from_shape rest _ (pfx ++ [k]) _ hmem with ⟨t, ht, hne, _⟩
        have : (pfx ++ [k]).length = ((pfx ++ [k]) ++ t).length := by rw [← ht]
        simp [List.length_append] at this
        exact hne this
      · refine List.Pairwise.imp_of_mem ?_ (dedupKeys_nodup _)
        intro k1 k2 _ _ hne
        simp only [Function.onFun]
        intro p hp1 hp2
        have h1 : ∃ t, p = pfx ++ k1 :: t := mgxu_block_shape hp1
        have h2 : ∃ t, p = pfx ++ k2 :: t := mgxu_block_shape hp2
        rcases h1 with ⟨t1, ht1⟩
        rcases h2 with ⟨t2, ht2⟩
        have heq : pfx ++ k1 :: t1 = pfx ++ k2 :: t2 := by rw [← ht1, ← ht2]
        have hkeys : k1 :: t1 = k2 :: t2 := List.append_cancel_left heq
        injection hkeys with hk _
        exact hne hk

/-- C6: no two rows emitted by the aggregator share an identical key path,
for every observation collection and extractor sequence, both before and
after the final sort. -/
theorem C6_no_duplicate_paths :
    (∀ (rsrcs : List Resource) (fcts : List (Resource → String)),
        ((make_group_x_usage rsrcs [] fcts 0).map Prod.fst).Nodup) ∧
    (∀ rsrcs : List Resource, ((make_kind_x_usage rsrcs).map Prod.fst).Nodup) := by
  constructor
  · intro rsrcs fcts
    exact mgxu_from_nodup _ rsrcs []
  · intro rsrcs
    have hperm := (List.perm_insertionSort rowLe
      (make_group_x_usage rsrcs [] [extract_kind, extract_node_name] 0)).map Prod.fst
    exact hperm.nodup_iff.mpr (mgxu_from_nodup _ rsrcs [])

/-- C10: every emitted key path is non-empty, of length between 1 and the
number of extractors; its last component therefore always exists and the
display fallback for a missing last component cannot be reached from
aggregator output. -/
theorem C10_paths_nonempty :
    (∀ (rsrcs : List Resource) (fcts : List (Resource → String)) (p : List String),
        p ∈ (make_group_x_usage rsrcs [] fcts 0).map Prod.fst →
        1 ≤ p.length ∧ p.length ≤ fcts.length ∧ p.getLast?.isSome = true) ∧
    (∀ (rsrcs : List Resource) (p : List String),
        p ∈ (make_kind_x_usage rsrcs).map Prod.fst →
        1 ≤ p.length ∧ p.length ≤ 2 ∧ p.getLast?.isSome = true) := by
  have key : ∀ (rsrcs : List Resource) (fcts : List (Resource → String)) (p : List String),
      p ∈ (make_group_x_usage rsrcs [] fcts 0).map Prod.fst →
      1 ≤ p.length ∧ p.length ≤ fcts.length ∧ p.getLast?.isSome = true := by
    intro rsrcs fcts p hp
    rcases mgxu_from_shape _ rsrcs [] p hp with ⟨t, ht, hne, hlen⟩
    have hp_ne : p ≠ [] := by
      rw [ht]
      simpa using hne
    refine ⟨?_, ?_, List.getLast?_isSome.mpr hp_ne⟩
    · rcases p with _ | _
      · exact absurd rfl hp_ne
      · simp
    · rw [ht]
      simpa using hlen
  constructor
  · exact key
  · intro rsrcs p hp
    have hp' : p ∈ (make_group_x_usage rsrcs []
        [extract_kind, extract_node_name] 0).map Prod.fst := by
      have hperm := (List.perm_insertionSort rowLe
        (make_group_x_usage rsrcs [] [extract_kind, extract_node_name] 0)).map Prod.fst
      exact hperm.mem_iff.mp hp
    exact key rsrcs [extract_kind, extract_node_name] p hp'

/-- Witness for C10 at the worked observation set and the path cpu. -/
theorem C10_paths_nonempty_witness :
    1 ≤ (["cpu"] : List String).length ∧ (["cpu"] : List String).length ≤ 2 ∧
      (["cpu"] : List String).getLast?.isSome = true :=
  C10_paths_nonempty.2 demoResources ["cpu"] (by decide)

/-- C4: the rows returned by make_kind_x_usage are sorted by key path in
lexicographic order over the path's string components, and on the worked
observation set the emitted path order is exactly cpu, cpu/n1, cpu/n2, mem,
mem/n1. -/
theorem C4_rows_sorted_lex :
    (∀ rsrcs : List Resource, (make_kind_x_usage rsrcs).Sorted rowLe) ∧
    (make_kind_x_usage demoResources).map Prod.fst =
      [["cpu"], ["cpu", "n1"], ["cpu", "n2"], ["mem"], ["mem", "n1"]] := by
  constructor
  · intro rsrcs
    haveI : IsTotal (List String × QtyOfUsage) rowLe := ⟨fun a b => pathLe_total a.1 b.1⟩
    haveI : IsTrans (List String × QtyOfUsage) rowLe := ⟨fun a b c => pathLe_trans a.1 b.1 c.1⟩
    exact List.sorted_insertionSort rowLe _
  · rfl

-- Aggregation completeness (C1) ----------------------------------------------

theorem rowsRequestedAtLevel_value (rows : List (List String × QtyOfUsage)) (n : Nat) :
    (rowsRequestedAtLevel rows n).value = levelReqSum rows n := by
  simp only [rowsRequestedAtLevel, levelReqSum, qtySum_value, List.map_map]
  rfl

theorem sum_map_filter_split (c : Resource → ℚ) (p : Resource → Bool) :
    ∀ rs : List Resource,
      ((rs.filter p).map c).sum + ((rs.filter (fun x => ! p x)).map c).sum = (rs.map c).sum
  | [] => by simp
  | r :: rest => by
      by_cases hp : p r = true <;>
        simp [List.filter_cons, hp, ← sum_map_filter_split c p rest] <;> ring

theorem keys_partition (c : Resource → ℚ) (f : Resource → String) :
    ∀ (keys : List String) (rs : List Resource), keys.Nodup →
      (∀ x ∈ rs, f x ∈ keys) →
      (keys.map (fun k => ((rs.filter (fun x => f x = k)).map c).sum)).sum = (rs.map c).sum := by
  intro keys
  induction keys with
  | nil =>
      intro rs _ hcov
      have hnil : rs = [] :=
        List.eq_nil_iff_forall_not_mem.mpr (fun x hx => by simpa using hcov x hx)
      subst hnil
      simp
  | cons k keys ih =>
      intro rs hnd hcov
      rw [List.map_cons, List.sum_cons]
      have hkeys : ∀ k' ∈ keys,
          ((rs.filter (fun x => f x = k')).map c).sum =
          (((rs.filter (fun x => ! (decide (f x = k)))).filter
              (fun x => f x = k')).map c).sum := by
        intro k' hk'
        have hne : k' ≠ k := fun h => (List.nodup_cons.mp hnd).1 (h ▸ hk')
        have hfil : (rs.filter (fun x => ! (decide (f x = k)))).filter
            (fun x => f x = k') = rs.filter (fun x => f x = k') := by
          rw [List.filter_filter]
          apply List.filter_congr
          intro x _
          by_cases hfx : f x = k'
          · have hnk : ¬ f x = k := fun h => hne (by rw [← hfx, h])
            simp [hfx, hnk, hne]
          · simp [hfx]
        rw [hfil]
      have hcov' : ∀ x ∈ rs.filter (fun x => ! (decide (f x = k))), f x ∈ keys := by
        intro x hx
        rcases List.mem_filter.mp hx with ⟨hxrs, hxp⟩
        simp only [Bool.not_eq_true', decide_eq_false_iff_not] at hxp
        rcases List.mem_cons.mp (hcov x hxrs) with h | h
        · exact absurd h hxp
        · exact h
      rw [List.map_congr_left hkeys, ih _ (List.nodup_cons.mp hnd).2 hcov']
      exact sum_map_filter_split c (fun x => decide (f x = k)) rs

theorem igm_partition_sum (c : Resource → ℚ) (f : Resource → String) (rs : List Resource) :
    ((into_group_map f rs).map (fun kg => (kg.2.map c).sum)).sum = (rs.map c).sum := by
  rw [into_group_map, List.map_map]
  exact keys_partition c f _ rs (dedupKeys_nodup _)
    (fun x hx => mem_dedupKeys.mpr (List.mem_map_of_mem f hx))

theorem filter_req_sum : ∀ rs : List Resource,
    ((rs.filter (fun r => r.usage = ResourceUsage.Requested)).map
      (fun r => r.quantity.value)).sum = reqSum rs
  | [] => rfl
  | r :: rest => by
      by_cases h : r.usage = ResourceUsage.Requested
      · simp only [reqSum, List.filter_cons, decide_eq_true h, if_true, List.map_cons,
          List.sum_cons, reqContrib, if_pos h]
        rw [filter_req_sum rest]
        rfl
      · simp only [reqSum, List.filter_cons, decide_eq_false h, Bool.false_eq_true,
          if_false, List.map_cons, List.sum_cons, reqContrib, if_neg h]
        rw [filter_req_sum rest]
        simp [reqSum]

theorem sum_by_usage_requested_value (rs : List Resource) :
    (sum_by_usage rs).requested.value = reqSum rs := by
  rw [sum_by_usage_eq]
  simpa [qtySum_value, List.map_map, Function.comp] using filter_req_sum rs

theorem levelReqSum_flatMap {α : Type} (l : List α)
    (g : α → List (List String × QtyOfUsage)) (n : Nat) :
    levelReqSum (l.flatMap g) n = (l.map (fun a => levelReqSum (g a) n)).sum := by
  induction l with
  | nil => rfl
  | cons a rest ih =>
      simp only [List.flatMap_cons, List.map_cons, List.sum_cons, ← ih]
      simp [levelReqSum, List.filter_append]

theorem levelReqSum_cons (row : List String × QtyOfUsage)
    (rows : List (List String × QtyOfUsage)) (n : Nat) :
    levelReqSum (row :: rows) n =
      (if row.1.length = n then row.2.requested.value else 0) + levelReqSum rows n := by
  by_cases h : row.1.length = n <;> simp [levelReqSum, List.filter_cons, h]

theorem levelReqSum_zero_of_deeper (rows : List (List String × QtyOfUsage)) (n : Nat)
    (h : ∀ p ∈ rows.map Prod.fst, n < p.length) : levelReqSum rows n = 0 := by
  rw [levelReqSum]
  have hnil : rows.filter (fun r => r.1.length = n) = [] := by
    rw [List.filter_eq_nil_iff]
    intro r hr
    have := h r.1 (List.mem_map_of_mem Prod.fst hr)
    simp only [decide_eq_true_eq]
    omega
  rw [hnil]
  rfl

/-- The requested values summed over any single level of the emitted tree give
back the total requested value of the observations: each level partitions
them. -/
theorem mgxu_from_levelReqSum :
    ∀ (fcts : List (Resource → String)) (rsrcs : List Resource) (pfx : List String)
      (j n : Nat), j < fcts.length → n = pfx.length + 1 + j →
      levelReqSum (make_group_x_usage_from fcts rsrcs pfx) n = reqSum rsrcs := by
  intro fcts
  induction fcts with
  | nil =>
      intro rsrcs pfx j n hj _
      simp at hj
  | cons f rest ih =>
      intro rsrcs pfx j n hj hn
      rw [make_group_x_usage_from, levelReqSum_flatMap]
      cases j with
      | zero =>
          have hblocks : ∀ kg ∈ into_group_map f rsrcs,
              levelReqSum ((pfx ++ [kg.1], sum_by_usage kg.2) ::
                make_group_x_usage_from rest kg.2 (pfx ++ [kg.1])) n =
              ((kg.2 : List Resource).map reqContrib).sum := by
            intro kg _
            rw [levelReqSum_cons]
            have hlen : (pfx ++ [kg.1]).length = n := by
              simp [List.length_append]
              omega
            rw [if_pos hlen]
            have hrec : levelReqSum
                (make_group_x_usage_from rest kg.2 (pfx ++ [kg.1])) n = 0 := by
              apply levelReqSum_zero_of_deeper
              intro p hp
              rcases mgxu_from_shape rest kg.2 (pfx ++ [kg.1]) p hp with ⟨t, ht, hne, _⟩
              rw [ht]
              have : 1 ≤ t.length := by
                cases t with
                | nil => exact absurd rfl hne
                | cons _ _ => simp
              simp [List.length_append]
              omega
            rw [hrec, sum_by_usage_requested_value, reqSum]
            ring
          rw [List.map_congr_left hblocks, igm_partition_sum]
          rfl
      | succ j' =>
          have hblocks : ∀ kg ∈ into_group_map f rsrcs,
              levelReqSum ((pfx ++ [kg.1], sum_by_usage kg.2) ::
                make_group_x_usage_from rest kg.2 (pfx ++ [kg.1])) n =
              ((kg.2 : List Resource).map reqContrib).sum := by
            intro kg _
            rw [levelReqSum_cons]
            have hlen : ¬ ((pfx ++ [kg.1]).length = n) := by
              simp [List.length_append]
              omega
            rw [if_neg hlen]
            have hj' : j' < rest.length := by
              simp at hj
              omega
            have hn' : n = (pfx ++ [kg.1]).length + 1 + j' := by
              simp [List.length_append]
              omega
            rw [ih kg.2 (pfx ++ [kg.1]) j' n hj' hn', reqSum]
            ring
          rw [List.map_congr_left hblocks, igm_partition_sum]
          rfl

/-- C1: for every observation collection and extractor sequence, the sum (via
Qty.add) of the deepest-level rows' .requested fields equals the sum of the
root-level rows' .requested fields: the recursive partition neither loses nor
double-counts an observation. -/
theorem C1_aggregation_completeness (rsrcs : List Resource)
    (fcts : List (Resource → String)) (h : 0 < fcts.length) :
    rowsRequestedAtLevel (make_group_x_usage rsrcs [] fcts 0) fcts.length =
      rowsRequestedAtLevel (make_group_x_usage rsrcs [] fcts 0) 1 := by
  rw [Qty.val_inj, rowsRequestedAtLevel_value, rowsRequestedAtLevel_value]
  simp only [make_group_x_usage, List.drop_zero]
  rw [mgxu_from_levelReqSum fcts rsrcs [] (fcts.length - 1) fcts.length (by omega)
      (by simp; omega),
    mgxu_from_levelReqSum fcts rsrcs [] 0 1 h (by simp)]

/-- Witness for C1 at the worked observation set with the default extractors. -/
theorem C1_aggregation_completeness_witness :
    rowsRequestedAtLevel
        (make_group_x_usage demoResources [] [extract_kind, extract_node_name] 0) 2 =
      rowsRequestedAtLevel
        (make_group_x_usage demoResources [] [extract_kind, extract_node_name] 0) 1 :=
  C1_aggregation_completeness demoResources [extract_kind, extract_node_name] (by decide)

-- The tree predicate (C3) ----------------------------------------------------

/-- C3 counterexample: the closure at main.rs 194-196 accepts a candidate
whose path is not a component-wise first part of the row's path, as long as
the lengths fit; the spec's description of the default predicate rejects it. -/
theorem C3_counterexample :
    default_is_parent_of (["cpu"], QtyOfUsage.defaultQOU)
        (["mem", "n1"], QtyOfUsage.defaultQOU) = true ∧
    spec_is_parent_of (["cpu"], QtyOfUsage.defaultQOU)
        (["mem", "n1"], QtyOfUsage.defaultQOU) = false := by
  constructor <;> rfl

/-- C3 amended: the is_parent_of predicate supplied by the caller holds for
(candidate, row) exactly when the candidate's path length is one less than
the row's path length; it does not check that the candidate's path is a
component-wise first part of the row's path. -/
theorem C3_is_parent_of_length_only (parent item : List String × QtyOfUsage) :
    default_is_parent_of parent item = true ↔ parent.1.length + 1 = item.1.length := by
  simp [default_is_parent_of]

-- Quantity parsing and failure propagation (C9) ------------------------------

theorem chomp_parse_digits (cs : List Char) :
    chompDigits1 cs = (parseDigits1 cs).map (fun x => x.2.2) := by
  rw [chompDigits1, parseDigits1]
  by_cases h : (cs.span Char.isDigit).1.isEmpty
  · rw [if_pos h, if_pos h]
    rfl
  · rw [if_neg h, if_neg h]
    rfl

theorem chomp_parse_signed (cs : List Char) :
    chompSignedDigits cs = (parseSignedDigits cs).map Prod.snd := by
  cases cs with
  | nil => rfl
  | cons d u =>
      rw [chompSignedDigits, parseSignedDigits]
      by_cases h1 : d = '+'
      · simp only [if_pos h1, chomp_parse_digits, Option.map_map]
        rfl
      · by_cases h2 : d = '-'
        · simp only [if_neg h1, if_pos h2, chomp_parse_digits, Option.map_map]
          rfl
        · simp only [if_neg h1, if_neg h2, chomp_parse_digits, Option.map_map]
          rfl

theorem chomp_parse_frac (cs : List Char) :
    chompFrac cs = (parseFracPart cs).map Prod.snd := by
  cases cs with
  | nil => rfl
  | cons c t =>
      rw [chompFrac, parseFracPart]
      by_cases h : c = '.'
      · rw [if_pos h, if_pos h, chomp_parse_digits]
        cases hp : parseDigits1 t with
        | none => rfl
        | some x =>
            obtain ⟨v, len, r⟩ := x
            rfl
      · rw [if_neg h, if_neg h]
        rfl

theorem chomp_parse_exp (cs : List Char) :
    chompExp cs = (parseExpPart cs).map Prod.snd := by
  cases cs with
  | nil => rfl
  | cons c t =>
      rw [chompExp, parseExpPart]
      by_cases h : c = 'e' ∨ c = 'E'
      · rw [if_pos h, if_pos h]
        exact chomp_parse_signed t
      · rw [if_neg h, if_neg h]
        rfl

/-- The parser succeeds on exactly the strings the grammar recognizer
accepts. -/
theorem from_str_matches (s : String) :
    exceptOk (Qty.from_str s) = matchesQuantity s := by
  rw [Qty.from_str, matchesQuantity]
  simp only [chomp_parse_digits, chomp_parse_frac, chomp_parse_exp]
  cases h1 : parseDigits1 (parseSign s.data).2 with
  | none => rfl
  | some x1 =>
      obtain ⟨ip, len, r1⟩ := x1
      simp only [Option.map_some']
      cases h2 : parseFracPart r1 with
      | none => simp [exceptOk]
      | some x2 =>
          obtain ⟨fr, r2⟩ := x2
          simp only [Option.map_some']
          cases h3 : parseExpPart r2 with
          | none =>
              simp only [Option.map_none']
              cases h4 : (parseSuffixPart r2).2.isEmpty <;> simp [exceptOk]
          | some x3 =>
              obtain ⟨ex, r3⟩ := x3
              simp only [Option.map_some']
              cases h4 : (parseSuffixPart r3).2.isEmpty <;> simp [exceptOk]

theorem exceptSeq_ok {α β : Type} {x : Except ParseError α}
    {k : α → Except ParseError β} {P Q : Prop} (h1 : exceptOk x = true ↔ P)
    (h2 : ∀ a, x = Except.ok a → (exceptOk (k a) = true ↔ Q)) :
    exceptOk (exceptSeq x k) = true ↔ (P ∧ Q) := by
  cases hx : x with
  | error e =>
      rw [hx] at h1
      simp only [exceptOk, exceptSeq, Bool.false_eq_true, false_iff] at h1 ⊢
      intro hpq
      exact h1 hpq.1
  | ok a =>
      rw [hx] at h1
      have hp : P := h1.mp rfl
      have hq := h2 a hx
      rw [exceptSeq]
      rw [hq]
      simp [hp]

theorem push_resources_ok (u : ResourceUsage) (loc : Location) :
    ∀ (items : List (String × String)) (init : List Resource),
      exceptOk (push_resources u loc items init) = true ↔
        ∀ s ∈ items.map Prod.snd, matchesQuantity s = true := by
  intro items
  induction items with
  | nil =>
      intro init
      simp [push_resources, exceptOk]
  | cons a rest ih =>
      intro init
      rw [push_resources]
      cases hq : Qty.from_str a.2 with
      | error e =>
          have hm : matchesQuantity a.2 = false := by
            rw [← from_str_matches, hq]
            rfl
          simp [exceptOk, hm]
      | ok q =>
          have hm : matchesQuantity a.2 = true := by
            rw [← from_str_matches, hq]
            rfl
          simp [ih, hm]

theorem opt_push_ok (u : ResourceUsage) (loc : Location)
    (o : Option (List (String × String))) (init : List Resource) :
    exceptOk (match o with
        | some r => push_resources u loc r init
        | none => Except.ok init) = true ↔
      ∀ s ∈ (o.getD []).map Prod.snd, matchesQuantity s = true := by
  cases o with
  | none => simp [exceptOk]
  | some r => simpa using push_resources_ok u loc r init

theorem collect_from_nodes_ok :
    ∀ (nodes : List NodeInfo) (init : List Resource),
      exceptOk (collect_from_nodes nodes init) = true ↔
        ∀ s ∈ nodeQtyStrings nodes, matchesQuantity s = true := by
  intro nodes
  induction nodes with
  | nil =>
      intro init
      simp [collect_from_nodes, exceptOk, nodeQtyStrings]
  | cons node rest ih =>
      intro init
      have hstr : nodeQtyStrings (node :: rest) =
          ((node.status.bind (fun v => v.allocatable)).getD []).map Prod.snd ++
            nodeQtyStrings rest := by
        simp [nodeQtyStrings]
      rw [collect_from_nodes, hstr]
      cases hst : node.status.bind (fun v => v.allocatable) with
      | none => simp [ih init]
      | some als =>
          rw [List.forall_mem_append]
          exact exceptSeq_ok (by simpa using push_resources_ok _ _ als init)
            (fun rs _ => ih rs)

theorem collect_requirements_ok (loc : Location) :
    ∀ (reqs : List ContainerResources) (init : List Resource),
      exceptOk (collect_requirements loc reqs init) = true ↔
        ∀ s ∈ reqs.flatMap crQtyStrings, matchesQuantity s = true := by
  intro reqs
  induction reqs with
  | nil =>
      intro init
      simp [collect_requirements, exceptOk]
  | cons requirements rest ih =>
      intro init
      rw [collect_requirements, List.flatMap_cons, List.forall_mem_append,
        crQtyStrings, List.forall_mem_append, and_assoc]
      exact exceptSeq_ok (opt_push_ok _ _ _ init)
        (fun rs1 _ => exceptSeq_ok (opt_push_ok _ _ _ rs1) (fun rs2 _ => ih rs2))

theorem collect_containers_ok (node_name ns : Option String) (pod_name : String) :
    ∀ (cts : List ContainerInfo) (init : List Resource),
      exceptOk (collect_containers node_name ns pod_name cts init) = true ↔
        ∀ s ∈ cts.flatMap (fun c => c.resources.toList.flatMap crQtyStrings),
          matchesQuantity s = true := by
  intro cts
  induction cts with
  | nil =>
      intro init
      simp [collect_containers, exceptOk]
  | cons container rest ih =>
      intro init
      rw [collect_containers, List.flatMap_cons, List.forall_mem_append]
      exact exceptSeq_ok (collect_requirements_ok _ _ init) (fun rs _ => ih rs)

theorem collect_from_pods_ok :
    ∀ (pods : List PodInfo) (init : List Resource),
      exceptOk (collect_from_pods pods init) = true ↔
        ∀ s ∈ podQtyStrings pods, matchesQuantity s = true := by
  intro pods
  induction pods with
  | nil =>
      intro init
      simp [collect_from_pods, exceptOk, podQtyStrings]
  | cons pod rest ih =>
      intro init
      have hstr : podQtyStrings (pod :: rest) =
          pod.spec.containers.flatMap (fun c => c.resources.toList.flatMap crQtyStrings) ++
            podQtyStrings rest := by
        simp [podQtyStrings]
      rw [collect_from_pods, hstr, List.forall_mem_append]
      exact exceptSeq_ok (collect_containers_ok _ _ _ _ init) (fun rs _ => ih rs)

/-- C9: quantity parsing fails exactly on texts outside the quantity grammar,
and both observation collectors succeed exactly when every quantity text they
meet conforms: a parse failure is always propagated, never recovered from or
dropped, so no observation with an unparsed quantity survives collection. -/
theorem C9_parse_error_exactness :
    (∀ s : String, exceptOk (Qty.from_str s) = true ↔ matchesQuantity s = true) ∧
    (∀ (nodes : List NodeInfo) (init : List Resource),
        exceptOk (collect_from_nodes nodes init) = true ↔
          ∀ s ∈ nodeQtyStrings nodes, matchesQuantity s = true) ∧
    (∀ (pods : List PodInfo) (init : List Resource),
        exceptOk (collect_from_pods pods init) = true ↔
          ∀ s ∈ podQtyStrings pods, matchesQuantity s = true) :=
  ⟨fun s => by rw [from_str_matches], collect_from_nodes_ok, collect_from_pods_ok⟩

/-- Witness for C9 at a concrete quantity string. -/
theorem C9_parse_error_exactness_witness :
    exceptOk (Qty.from_str "1Gi") = true ↔ matchesQuantity "1Gi" = true :=
  C9_parse_error_exactness.1 "1Gi"
